import Mathlib

/-!
Verification development for the genome-assembly core
(`genome_assembly_src/dbg_assembler.py`, `olc_assembler_old.py`,
`graph_utils.py`).

The Python code is shallowly embedded: sequences are `List Char`, Python
dicts (and `defaultdict`s) are insertion-ordered association lists,
`networkx.DiGraph` is a structure of an insertion-ordered node list plus
an insertion-ordered adjacency association list.  Machine integers are
`Nat` (all quantities in the modelled fragment are non-negative counts and
lengths; configuration parameters `k` and `min_overlap` are modelled over
`Nat`, so `k = 0` represents the non-positive configurations).  Reads are
`(identifier, sequence)` pairs; the quality component of a FASTQ record is
never consulted by the modelled functions and is dropped.  The
`while` loops of the traversals are modelled by fuel-indexed recursion,
with fuel bounds that dominate the number of iterations the Python loops
can perform, so the embedded functions compute the same results.
-/

abbrev Sq := List Char

abbrev Node := List Char

/-- Lookup in an insertion-ordered association list (Python dict read). -/
def lookupA {α β : Type} [DecidableEq α] : List (α × β) → α → Option β
  | [], _ => none
  | (k, v) :: rest, x => if x = k then some v else lookupA rest x

/-- Assignment in an insertion-ordered association list (Python dict write:
update the first binding in place, else append at the end). -/
def setA {α β : Type} [DecidableEq α] : List (α × β) → α → β → List (α × β)
  | [], x, v => [(x, v)]
  | (k, w) :: rest, x, v =>
      if x = k then (x, v) :: rest else (k, w) :: setA rest x v

/-- Read access on a `defaultdict(list)`: returns the stored list and the
possibly-extended dictionary (a missing key is inserted, bound to `[]`, at
the end — this mutation is Python `defaultdict` auto-vivification). -/
def dgetA {α β : Type} [DecidableEq α] (l : List (α × List β)) (x : α) :
    List β × List (α × List β) :=
  match lookupA l x with
  | some v => (v, l)
  | none => ([], l ++ [(x, [])])

/-- Read access on a `defaultdict(int)` without recording the
auto-vivified zero entry (observationally equal for reads). -/
def degGet (d : List (Node × Nat)) (x : Node) : Nat := (lookupA d x).getD 0

/-- Python `d[x] += 1` on a `defaultdict(int)`. -/
def degInc (d : List (Node × Nat)) (x : Node) : List (Node × Nat) :=
  setA d x (degGet d x + 1)

/-- Python `max(xs, key=f)` on the non-empty list `x :: xs`: the first
element attaining the maximal key. -/
def pickMaxBy {α : Type} (f : α → Nat) (x : α) (xs : List α) : α :=
  xs.foldl (fun b a => if f b < f a then a else b) x

/-- State of `DBGAssembler`: parameter `k`, adjacency `defaultdict(list)`
`graph`, and the `defaultdict(int)` degree counters. -/
structure DBG where
  k : Nat
  graph : List (Node × List Node)
  in_degree : List (Node × Nat)
  out_degree : List (Node × Nat)

/-- `DBGAssembler.__init__(k)`: no validation is performed. -/
def initDBG (k : Nat) : DBG := ⟨k, [], [], []⟩

/-- Character test `c not in 'ACGT'`. -/
def notACGT (c : Char) : Bool :=
  !(c == 'A' || c == 'C' || c == 'G' || c == 'T')

/-- Edge insertion of `build_graph`: `self.graph[prefix]` (a `defaultdict`
access that may create the key), then append the suffix and bump the
degree counters only if the suffix is not already recorded. -/
def addDbgEdge (st : DBG) (pre suf : Node) : DBG :=
  let r := dgetA st.graph pre
  if suf ∈ r.1 then { st with graph := r.2 }
  else
    { st with
      graph := setA r.2 pre (r.1 ++ [suf])
      out_degree := degInc st.out_degree pre
      in_degree := degInc st.in_degree suf }

/-- One window of `build_graph`: extract `seq[i:i+k]`, skip it if it has a
non-ACGT character, otherwise add the edge `kmer[:-1] → kmer[1:]`. -/
def processWindow (st : DBG) (s : Sq) (i : Nat) : DBG :=
  let kmer := (s.drop i).take st.k
  if kmer.any notACGT then st
  else addDbgEdge st kmer.dropLast (kmer.drop 1)

/-- One read of `build_graph`: reads shorter than `k` contribute nothing;
otherwise all windows `i ∈ range(len(seq) - k + 1)` are processed. -/
def processRead (st : DBG) (s : Sq) : DBG :=
  if s.length < st.k then st
  else (List.range (s.length - st.k + 1)).foldl (fun t i => processWindow t s i) st

/-- `DBGAssembler.build_graph(reads)`. -/
def build_graph (st : DBG) (reads : List (String × Sq)) : DBG :=
  reads.foldl (fun t r => processRead t r.2) st

/-- Python `next_node[-1]` packaged as a one-character list; Python raises
`IndexError` on an empty string, which is unreachable on graphs produced
by `build_graph` (the branch is guarded by a visited check that the
relevant empty node cannot pass). -/
def lastCharOf (l : Sq) : Sq :=
  match l.getLast? with
  | some c => [c]
  | none => []

/-- The `while True` loop of `find_contigs`: mark the current node
visited, follow the unique successor while it has in-degree 1 and is
unvisited, collecting one character per step.  Returns the collected
tail, the visited set and the (possibly auto-vivified) graph. -/
def extendContig :
    Nat → List (Node × List Node) → List (Node × Nat) → List Node → Node → Sq →
    Sq × List Node × List (Node × List Node)
  | 0, g, _, visited, current, tail => (tail, current :: visited, g)
  | Nat.succ f, g, inD, visited, current, tail =>
      let visited1 := current :: visited
      let r := dgetA g current
      match r.1 with
      | [n] =>
          if degGet inD n = 1 then
            if n ∈ visited1 then (tail, visited1, r.2)
            else extendContig f r.2 inD visited1 n (tail ++ lastCharOf n)
          else (tail, visited1, r.2)
      | _ => (tail, visited1, r.2)

/-- First-priority start nodes of `find_contigs`: positive out-degree and
(in-degree ≠ out-degree or in-degree = 0). -/
def startNodes1 (st : DBG) : List Node :=
  (st.graph.map Prod.fst).filter fun node =>
    decide (0 < degGet st.out_degree node ∧
      (degGet st.in_degree node ≠ degGet st.out_degree node ∨
        degGet st.in_degree node = 0))

/-- Start-node selection of `find_contigs` (fallback: the first node with
outgoing edges, if any). -/
def startNodesDBG (st : DBG) : List Node :=
  let s1 := startNodes1 st
  if s1.isEmpty then
    match (st.graph.map Prod.fst).find?
        (fun n => decide (0 < degGet st.out_degree n)) with
    | some n => [n]
    | none => []
  else s1

/-- Fuel bound for the traversal loop: it visits pairwise-distinct nodes,
all of which are keys or recorded successors of the graph. -/
def contigFuel (st : DBG) : Nat :=
  st.graph.length + (st.graph.map (fun p => p.2.length)).sum + 1

/-- `DBGAssembler.find_contigs()`: returns the contig list and the
post-traversal assembler state (the graph may have been auto-vivified). -/
def find_contigs (st : DBG) : List Sq × DBG :=
  let starts := startNodesDBG st
  let res := starts.foldl
    (fun (acc : List Sq × List Node × List (Node × List Node)) strt =>
      if strt ∈ acc.2.1 then acc
      else
        let r := extendContig (contigFuel st) acc.2.2 st.in_degree acc.2.1 strt []
        let contig := strt ++ r.1
        if st.k ≤ contig.length then (acc.1 ++ [contig], r.2.1, r.2.2)
        else (acc.1, r.2.1, r.2.2))
    ([], [], st.graph)
  (res.1, { st with graph := res.2.2 })

/-- The DBG pipeline `build_graph` then `find_contigs`, from a fresh
assembler. -/
def dbgPipeline (k : Nat) (reads : List (String × Sq)) : List Sq :=
  (find_contigs (build_graph (initDBG k) reads)).1

/-- Decimal rendering of an integer, as Python `f-string` formatting. -/
def intChars (i : Int) : Sq :=
  if i < 0 then '-' :: Nat.toDigits 10 i.natAbs else Nat.toDigits 10 i.toNat

/-- GFA segment line `S\t<node>\t<node>` of `write_gfa`. -/
def segLine (node : Node) : Sq :=
  ('S' :: '\t' :: node) ++ ('\t' :: node)

/-- GFA link line `L\t<u>\t+\t<v>\t+\t<ov>M` of `write_gfa`. -/
def linkLine (u v : Node) (ov : Int) : Sq :=
  ('L' :: '\t' :: u) ++ ('\t' :: '+' :: '\t' :: v) ++
    ('\t' :: '+' :: '\t' :: (intChars ov ++ ['M']))

/-- GFA header line. -/
def gfaHeader : Sq := "H\tVN:Z:1.0".toList

/-- The sequence of lines `write_gfa(graph, filename)` writes: the header,
one segment line per stored node, and one link line per edge whose
overlap field is `len(node) - 1` for the source node. -/
def write_gfa_lines (g : List (Node × List Node)) : List Sq :=
  gfaHeader :: ((g.map fun p => segLine p.1) ++
    (g.flatMap fun p => p.2.map fun v => linkLine p.1 v ((p.1.length : Int) - 1)))

/-- `networkx.DiGraph` as used by the OLC assembler: node list in
insertion order, adjacency as an insertion-ordered association list of
insertion-ordered successor/weight association lists. -/
structure OGraph where
  nodes : List String
  adj : List (String × List (String × Nat))

/-- The graph a fresh `OLCAssembler` owns. -/
def emptyOG : OGraph := ⟨[], []⟩

/-- Record a node if it is new (part of `DiGraph.add_edge`). -/
def addNodeOG (g : OGraph) (u : String) : OGraph :=
  if u ∈ g.nodes then g else { g with nodes := g.nodes ++ [u] }

/-- `DiGraph.add_edge(u, v, weight=w)`: register both endpoints, then
store/overwrite the successor entry. -/
def addEdgeOG (g : OGraph) (u v : String) (w : Nat) : OGraph :=
  let g1 := addNodeOG (addNodeOG g u) v
  match lookupA g1.adj u with
  | some l => { g1 with adj := setA g1.adj u (setA l v w) }
  | none => { g1 with adj := g1.adj ++ [(u, [(v, w)])] }

/-- Stored successors of `u` with weights. -/
def succsOG (g : OGraph) (u : String) : List (String × Nat) :=
  (lookupA g.adj u).getD []

/-- `graph.edges()` in adjacency iteration order. -/
def edgesOG (g : OGraph) : List (String × String) :=
  g.adj.flatMap fun p => p.2.map fun q => (p.1, q.1)

/-- Edges with their stored weights, in adjacency iteration order. -/
def edgesWOG (g : OGraph) : List (String × String × Nat) :=
  g.adj.flatMap fun p => p.2.map fun q => (p.1, q.1, q.2)

/-- `graph[u][v]['weight']` (total here; Python raises `KeyError` on a
missing edge, and the modelled call sites only look up recorded edges). -/
def weightOG (g : OGraph) (u v : String) : Nat :=
  (lookupA (succsOG g u) v).getD 0

/-- `graph.out_degree(u)`. -/
def outDegOG (g : OGraph) (u : String) : Nat := (succsOG g u).length

/-- `graph.in_degree(u)`. -/
def inDegOG (g : OGraph) (u : String) : Nat :=
  ((edgesOG g).map Prod.snd).count u

/-- Python `seq_i[-k:]`: the whole string when `k = 0` (since `-0 == 0`),
otherwise the last `min k len` characters. -/
def pySuffix (s : Sq) (k : Nat) : Sq :=
  if k = 0 then s else s.drop (s.length - k)

/-- The candidate overlap lengths `range(eff, minlen + 1, stp)` scanned by
`find_overlaps`. -/
def kRange (eff minlen stp : Nat) : List Nat :=
  List.range' eff (((minlen + 1) - eff + (stp - 1)) / stp) stp

/-- Stride refinement of `find_overlaps`: the maximum exact suffix/prefix
match over the window `range(a, b + 1)` (0 when none matches). -/
def refineMax (si sj : Sq) (a b : Nat) : Nat :=
  ((List.range' a (b + 1 - a)).filter
    (fun ek => pySuffix si ek == List.take ek sj)).foldl max 0

/-- The overlap-length search of `find_overlaps` for one ordered pair:
first stride hit, refined locally when the stride exceeds 1; 0 when no
candidate matches. -/
def findOverlapLen (eff stp : Nat) (si sj : Sq) : Nat :=
  let minlen := min si.length sj.length
  match (kRange eff minlen stp).find?
      (fun k => pySuffix si k == List.take k sj) with
  | none => 0
  | some k =>
      if 1 < stp then refineMax si sj (max (k - stp) eff) (min (k + stp) minlen)
      else k

/-- Subsampling cap of `find_overlaps`: `min(read_count, 2000)` when the
read count is below 500, else 500. -/
def maxReadsFor (n : Nat) : Nat := if n < 500 then min n 2000 else 500

/-- The working reads `reads[:max_reads]`. -/
def workingReads (reads : List (String × Sq)) : List (String × Sq) :=
  reads.take (maxReadsFor reads.length)

/-- Long-read detection: the mean length of the first 100 working reads
exceeds 1000.  `np.mean` of an empty slice is NaN (with a runtime
warning, not an exception) and NaN > 1000 is false, so an empty working
set is never long-read; the float comparison is modelled exactly. -/
def isLongRead (ws : List (String × Sq)) : Bool :=
  let first := ws.take 100
  decide (0 < first.length ∧
    1000 * first.length < (first.map fun r => r.2.length).sum)

/-- `effective_min_overlap`: tripled in long-read mode. -/
def effMinOverlap (m : Nat) (ws : List (String × Sq)) : Nat :=
  if isLongRead ws then 3 * m else m

/-- Search stride: 10 in long-read mode, else 1. -/
def strideFor (ws : List (String × Sq)) : Nat :=
  if isLongRead ws then 10 else 1

/-- `OLCAssembler.find_overlaps(reads)` with `min_overlap = m`: the
overlap graph built over the working reads (every ordered pair with
`i ≠ j`, in nested enumeration order). -/
def find_overlaps (m : Nat) (reads : List (String × Sq)) : OGraph :=
  let ws := workingReads reads
  let eff := effMinOverlap m ws
  let stp := strideFor ws
  ws.enum.foldl (fun g pi =>
    ws.enum.foldl (fun g2 pj =>
      if pi.1 = pj.1 then g2
      else
        let mo := findOverlapLen eff stp pi.2.2 pj.2.2
        if eff ≤ mo then addEdgeOG g2 pi.2.1 pj.2.1 mo else g2) g) emptyOG

/-- Start-node priority of `find_paths`: zero in-degree; else in-degree
below out-degree; else the single node of maximal out-degree among nodes
with outgoing edges (Python's stable descending sort followed by `[0]`
picks the first node attaining the maximum); else the first node. -/
def startNodesOLC (g : OGraph) : List String :=
  let s1 := g.nodes.filter fun n => decide (inDegOG g n = 0)
  if !s1.isEmpty then s1 else
  let s2 := g.nodes.filter fun n => decide (inDegOG g n < outDegOG g n)
  if !s2.isEmpty then s2 else
  match g.nodes.filter (fun n => decide (0 < outDegOG g n)) with
  | [] => g.nodes.take 1
  | n :: rest => [pickMaxBy (outDegOG g) n rest]

/-- Outgoing edges of `u` not yet visited, in adjacency order. -/
def unvisitedOut (g : OGraph) (visited : List (String × String)) (u : String) :
    List (String × String) :=
  ((succsOG g u).map fun q => (u, q.1)).filter fun e => decide (e ∉ visited)

/-- The greedy extension loop of `_build_greedy_paths`: repeatedly take
the unvisited outgoing edge of maximal weight, mark it visited, and stop
when the target would close a cycle in the current path (the edge is then
consumed without being appended) or when no unvisited outgoing edge
remains. -/
def extendPath :
    Nat → OGraph → List (String × String) → List String → String →
    List String × List (String × String)
  | 0, _, visited, path, _ => (path, visited)
  | Nat.succ f, g, visited, path, current =>
      match unvisitedOut g visited current with
      | [] => (path, visited)
      | e :: es =>
          let best := pickMaxBy (fun e2 => weightOG g e2.1 e2.2) e es
          let visited1 := best :: visited
          if best.2 ∈ path then (path, visited1)
          else extendPath f g visited1 (path ++ [best.2]) best.2

/-- `OLCAssembler._build_greedy_paths(start, paths, visited_edges,
start_edge)`: seed the path (consuming the start edge when given), extend
greedily, and record the path only when it has at least two nodes. -/
def buildGreedyPaths (g : OGraph) (strt : String) (pathsAcc : List (List String))
    (visited : List (String × String)) (startEdge : Option (String × String)) :
    List (List String) × List (String × String) :=
  let seeded :=
    match startEdge with
    | some e =>
        if e.1 = strt then ([strt, e.2], e :: visited, e.2)
        else ([strt], visited, strt)
    | none => ([strt], visited, strt)
  let r := extendPath ((edgesOG g).length + 1) g seeded.2.1 seeded.1 seeded.2.2
  if 1 < r.1.length then (pathsAcc ++ [r.1], r.2) else (pathsAcc, r.2)

/-- The leftover-edge loop of `find_paths`: while some edge is unvisited,
seed a greedy path from it.  (Python iterates a set difference here; the
pick is modelled as the first unvisited edge in adjacency order.) -/
def remainingLoop :
    Nat → OGraph → List (List String) → List (String × String) →
    List (List String) × List (String × String)
  | 0, _, paths, visited => (paths, visited)
  | Nat.succ f, g, paths, visited =>
      match (edgesOG g).filter (fun e => decide (e ∉ visited)) with
      | [] => (paths, visited)
      | e :: _ =>
          let r := buildGreedyPaths g e.1 paths visited (some e)
          remainingLoop f g r.1 r.2

/-- `OLCAssembler.find_paths()`. -/
def find_paths (g : OGraph) : List (List String) :=
  if g.nodes.isEmpty then []
  else
    let r := (startNodesOLC g).foldl
      (fun acc s => buildGreedyPaths g s acc.1 acc.2 none) ([], [])
    (remainingLoop ((edgesOG g).length + 1) g r.1 r.2).1

/-- Clamp applied by `generate_consensus` before slicing: an overlap at
least the read length is clipped to `max(0, len - 1)` (which is `len - 1`
in `Nat`). -/
def clipOverlap (ov len : Nat) : Nat := if len ≤ ov then len - 1 else ov

/-- Stitch one path of `generate_consensus`: start from the first read
and append each subsequent read from its clamped overlap offset onward.
A single-node path yields that read unchanged, as in the Python
short-circuit. -/
def stitchPath (g : OGraph) (dict : List (String × Sq)) (path : List String) : Sq :=
  match path with
  | [] => []
  | h :: rest =>
      (rest.foldl (fun (st : Sq × String) nxt =>
        let sq := (lookupA dict nxt).getD []
        let ov := clipOverlap (weightOG g st.2 nxt) sq.length
        (st.1 ++ sq.drop ov, nxt)) ((lookupA dict h).getD [], h)).1

/-- Stable descending insertion by key (Python's `sorted(..., key=...,
reverse=True)` keeps the original order of equal keys). -/
def insertDescBy {α : Type} (f : α → Nat) (a : α) : List α → List α
  | [] => [a]
  | b :: bs => if f b < f a then a :: b :: bs else b :: insertDescBy f a bs

/-- Stable descending sort by key. -/
def sortDescBy {α : Type} (f : α → Nat) : List α → List α
  | [] => []
  | a :: as => insertDescBy f a (sortDescBy f as)

/-- Fallback of `generate_consensus` when no paths exist but reads do:
the five longest reads, by descending length. -/
def fiveLongest (dict : List (String × Sq)) : List Sq :=
  ((sortDescBy (fun p => p.2.length) dict).take 5).map Prod.snd

/-- `OLCAssembler.generate_consensus(paths, read_dict)`. -/
def generate_consensus (g : OGraph) (paths : List (List String))
    (dict : List (String × Sq)) : List Sq :=
  let contigs := paths.map (stitchPath g dict)
  if contigs.isEmpty && !dict.isEmpty then fiveLongest dict else contigs

/-- The read dictionary `{header: seq for header, seq, _ in reads}`:
first position kept, last value kept on duplicate headers. -/
def mkReadDict (reads : List (String × Sq)) : List (String × Sq) :=
  reads.foldl (fun d r => setA d r.1 r.2) []

/-- The OLC pipeline `find_overlaps`, `find_paths`, `generate_consensus`
from a fresh assembler. -/
def olcPipeline (m : Nat) (reads : List (String × Sq)) : List Sq :=
  let g := find_overlaps m reads
  generate_consensus g (find_paths g) (mkReadDict reads)

/-- Consecutive node pairs of a path. -/
def consecPairs (p : List String) : List (String × String) := p.zip p.tail

/-- All consecutive pairs across a list of emitted paths. -/
def pathPairs (paths : List (List String)) : List (String × String) :=
  paths.flatMap consecPairs

/-- Total number of adjacency entries equal to `n` across all stored
lists (the number of recorded edges into `n`). -/
def countTargets (n : Node) (g : List (Node × List Node)) : Nat :=
  (g.flatMap fun p => p.2).count n

/-- Degree/adjacency consistency of a DBG state: the out-degree counter
of every node is the length of its stored adjacency list, and the
in-degree counter is the number of adjacency entries pointing at it. -/
def InvDBG (st : DBG) : Prop :=
  (∀ n, degGet st.out_degree n = ((lookupA st.graph n).getD []).length) ∧
    (∀ n, degGet st.in_degree n = countTargets n st.graph)

/-- Relation between adjacency stores: the second extends the first by
bindings whose adjacency lists are all empty (sink auto-vivification). -/
def OnlyEmpty (a b : List (Node × List Node)) : Prop :=
  ∃ extra, b = a ++ extra ∧ ∀ p ∈ extra, p.2 = ([] : List Node)

/-- All graph nodes mentioned by a DBG adjacency store: its keys and all
recorded successors. -/
def dbgNodes (st : DBG) : List Node :=
  st.graph.map Prod.fst ++ st.graph.flatMap (fun p => p.2)

/-- Scenario A reads. -/
def readsA : List (String × Sq) :=
  [("r1", "ACGTAC".toList), ("r2", "GTACTG".toList), ("r3", "ACTGAA".toList)]

/-- Scenario B reads. -/
def readsB : List (String × Sq) :=
  [("r0", "AAAACCCC".toList), ("r1", "CCCCGGGG".toList)]

/-- Two reads whose unique recorded overlap equals the second read's full
length (the first read ends with the whole second read). -/
def readsC7 : List (String × Sq) := [("r0", "AC".toList), ("r1", "C".toList)]

/-- A two-node overlap graph with a directed 2-cycle. -/
def gCyc : OGraph := addEdgeOG (addEdgeOG emptyOG "a" "b" 2) "b" "a" 2

/-- Traversal invariant of `find_paths`: the collection `P` of consecutive
pairs emitted so far is duplicate-free, every emitted pair has been marked
visited, and every visited pair is an edge of the graph. -/
def PathInv (g : OGraph) (P : List (String × String))
    (visited : List (String × String)) : Prop :=
  P.Nodup ∧ (∀ e ∈ P, e ∈ visited) ∧ ∀ e ∈ visited, e ∈ edgesOG g

/-- C1, counterexample: on the 2-cycle overlap graph a ⇄ b, `find_paths`
emits the single path [a, b]; the edge (b, a) is consumed by the cycle
guard and appears as a consecutive pair in no emitted path, so the
emitted paths do not partition the edge set. -/
theorem c1_cex :
    ("b", "a") ∈ edgesOG gCyc ∧ find_paths gCyc = [["a", "b"]] ∧
      ("b", "a") ∉ pathPairs (find_paths gCyc) := by
  refine ⟨by decide, rfl, by decide⟩

/-- C2, counterexample: with k = 0 the DBG assembler raises no
configuration error and `build_graph` does construct a (degenerate)
graph, and with min_overlap = 0 the OLC assembler likewise constructs an
overlap graph — graph construction takes place, contradicting fail-fast. -/
theorem c2_cex :
    (build_graph (initDBG 0) [("r", "A".toList)]).graph = [([], [[]])] ∧
      edgesWOG (find_overlaps 0 [("a", "AC".toList), ("b", "CA".toList)]) =
        [("a", "b", 1), ("b", "a", 1)] :=
  ⟨rfl, rfl⟩

/-- C2, amended: neither constructor validates its parameter; with k = 0
or min_overlap = 0 both pipelines run to completion without any error and
produce contigs. -/
theorem c2_amended_no_config_check :
    dbgPipeline 0 [("r", "A".toList)] = [[]] ∧
      olcPipeline 0 [("a", "AC".toList), ("b", "CA".toList)] = ["ACA".toList] :=
  ⟨rfl, rfl⟩

/-- C3, counterexample: on the Scenario A graph, `find_contigs` inserts
the sink node "GAA" (with an empty adjacency list) into the graph via
`defaultdict` auto-vivification, so the node key set is not preserved. -/
theorem c3_cex :
    lookupA (build_graph (initDBG 4) readsA).graph "GAA".toList = none ∧
      lookupA (find_contigs (build_graph (initDBG 4) readsA)).2.graph
        "GAA".toList = some [] :=
  ⟨rfl, rfl⟩

/-- C6: on Scenario A (k = 4), the built graph mentions the eight
expected 3-mer nodes and `find_contigs` emits exactly the single contig
"ACGTACTGAA". -/
theorem c6_scenario_a :
    "ACG".toList ∈ dbgNodes (build_graph (initDBG 4) readsA) ∧
      "CGT".toList ∈ dbgNodes (build_graph (initDBG 4) readsA) ∧
      "GTA".toList ∈ dbgNodes (build_graph (initDBG 4) readsA) ∧
      "TAC".toList ∈ dbgNodes (build_graph (initDBG 4) readsA) ∧
      "ACT".toList ∈ dbgNodes (build_graph (initDBG 4) readsA) ∧
      "CTG".toList ∈ dbgNodes (build_graph (initDBG 4) readsA) ∧
      "TGA".toList ∈ dbgNodes (build_graph (initDBG 4) readsA) ∧
      "GAA".toList ∈ dbgNodes (build_graph (initDBG 4) readsA) ∧
      dbgPipeline 4 readsA = ["ACGTACTGAA".toList] := by
  refine ⟨?_, ?_, ?_, ?_, ?_, ?_, ?_, ?_, rfl⟩ <;> decide

/-- C7, counterexample: for reads r0 = "AC", r1 = "C" with
min_overlap = 1 the recorded edge r0 → r1 has weight 1 = len(r1); the
emitted contig is "ACC", not read1 ++ read2[1:] = "AC", because
`generate_consensus` clamps the offset to len − 1. -/
theorem c7_cex :
    weightOG (find_overlaps 1 readsC7) "r0" "r1" = 1 ∧
      find_paths (find_overlaps 1 readsC7) = [["r0", "r1"]] ∧
      olcPipeline 1 readsC7 = ["ACC".toList] ∧
      "ACC".toList ≠ "AC".toList ++ List.drop 1 "C".toList := by
  refine ⟨rfl, rfl, rfl, by decide⟩

/-- C8: on the empty read list, both pipelines return the empty contig
list (build/traverse and overlap/path/consensus stages all degrade to
empty results; no partial operation of the modelled code can fail). -/
theorem c8_empty_degrades :
    ∀ k m : Nat, dbgPipeline k [] = [] ∧ olcPipeline m [] = [] := by
  intro k m
  exact ⟨rfl, rfl⟩

/-- C10: the slice offset `clipOverlap ov len` used by
`generate_consensus` (via `stitchPath`) equals min ov (len − 1) and is
always within [0, len]; in particular it is 0 for an empty read, so the
subsequent drop is always in range and never fails. -/
theorem c10_clip_bounds :
    ∀ ov len : Nat, clipOverlap ov len = min ov (len - 1) ∧
      clipOverlap ov len ≤ len := by
  intro ov len
  unfold clipOverlap
  split <;> omega

theorem foldl_preserves_mem {α β : Type} (P : β → Prop) (f : β → α → β) :
    ∀ (l : List α) (b : β), P b → (∀ b2 a, a ∈ l → P b2 → P (f b2 a)) →
      P (l.foldl f b) := by
  intro l
  induction l with
  | nil => intro b hb _; exact hb
  | cons a rest ih =>
      intro b hb hstep
      exact ih (f b a) (hstep b a (List.mem_cons_self a rest) hb)
        (fun b2 a2 h2 => hstep b2 a2 (List.mem_cons_of_mem a h2))

theorem lookupA_setA {α β : Type} [DecidableEq α] (l : List (α × β)) (x y : α)
    (v : β) :
    lookupA (setA l x v) y = if y = x then some v else lookupA l y := by
  induction l with
  | nil => simp [setA, lookupA]
  | cons p rest ih =>
      obtain ⟨k, w⟩ := p
      by_cases hxk : x = k
      · subst hxk
        by_cases hyx : y = x <;> simp [setA, lookupA, hyx]
      · have hkx : ¬ k = x := fun h2 => hxk h2.symm
        by_cases hyk : y = k
        · subst hyk
          simp [setA, hxk, lookupA, hkx]
        · simp [setA, hxk, lookupA, hyk, ih]

theorem lookupA_append_single {α β : Type} [DecidableEq α] (l : List (α × β))
    (x y : α) (v : β) :
    lookupA (l ++ [(x, v)]) y =
      match lookupA l y with
      | some w => some w
      | none => if y = x then some v else none := by
  induction l with
  | nil => simp [lookupA]
  | cons p rest ih =>
      obtain ⟨k, w⟩ := p
      by_cases hyk : y = k <;> simp [lookupA, hyk, ih]

theorem lookupA_dgetA_self {α β : Type} [DecidableEq α]
    (l : List (α × List β)) (x : α) :
    lookupA (dgetA l x).2 x = some (dgetA l x).1 := by
  unfold dgetA
  cases h : lookupA l x with
  | some v => simpa using h
  | none => simp [lookupA_append_single, h]

theorem degGet_degInc (d : List (Node × Nat)) (x y : Node) :
    degGet (degInc d x) y = degGet d y + (if y = x then 1 else 0) := by
  unfold degInc degGet
  rw [lookupA_setA]
  by_cases h : y = x <;> simp [h, degGet]

theorem countTargets_setA_concat (g : List (Node × List Node)) (x : Node)
    (l : List Node) (suf n : Node) (h : lookupA g x = some l) :
    countTargets n (setA g x (l ++ [suf])) =
      countTargets n g + (if n = suf then 1 else 0) := by
  induction g with
  | nil => simp [lookupA] at h
  | cons p rest ih =>
      obtain ⟨k, w⟩ := p
      by_cases hxk : x = k
      · subst hxk
        simp [lookupA] at h
        subst h
        simp only [setA, if_pos rfl, countTargets, List.flatMap_cons,
          List.count_append]
        by_cases hns : n = suf
        · simp [hns, List.count_singleton', List.count_cons, beq_iff_eq]
          omega
        · simp [hns, List.count_singleton', List.count_cons, beq_iff_eq]
      · simp only [lookupA, if_neg hxk] at h
        simp only [setA, if_neg hxk]
        simp only [countTargets, List.flatMap_cons, List.count_append] at ih ⊢
        rw [ih h]
        omega

theorem countTargets_append_empty (g : List (Node × List Node)) (x n : Node) :
    countTargets n (g ++ [(x, [])]) = countTargets n g := by
  simp [countTargets]

theorem invDBG_dget (k : Nat) (g : List (Node × List Node))
    (i o : List (Node × Nat)) (x : Node) (h : InvDBG ⟨k, g, i, o⟩) :
    InvDBG ⟨k, (dgetA g x).2, i, o⟩ := by
  obtain ⟨ho, hi⟩ := h
  unfold dgetA
  cases hx : lookupA g x with
  | some v => exact ⟨ho, hi⟩
  | none =>
      constructor
      · intro n
        rw [lookupA_append_single, ho n]
        cases hn : lookupA g n with
        | some w => simp [hn]
        | none => by_cases hnx : n = x <;> simp [hn, hnx]
      · intro n
        rw [countTargets_append_empty]
        exact hi n

theorem invDBG_addDbgEdge (st : DBG) (pre suf : Node) (h : InvDBG st) :
    InvDBG (addDbgEdge st pre suf) := by
  obtain ⟨k, g, i, o⟩ := st
  have h1 : InvDBG ⟨k, (dgetA g pre).2, i, o⟩ := invDBG_dget k g i o pre h
  have hl : lookupA (dgetA g pre).2 pre = some (dgetA g pre).1 :=
    lookupA_dgetA_self g pre
  unfold addDbgEdge
  by_cases hmem : suf ∈ (dgetA g pre).1
  · simpa [hmem] using h1
  · obtain ⟨ho, hi⟩ := h1
    simp only [hmem, if_false]
    constructor
    · intro n
      simp only [degGet_degInc, lookupA_setA]
      by_cases hn : n = pre
      · subst hn
        simp [hl, ho n]
      · simp [hn, ho n]
    · intro n
      simp only [degGet_degInc]
      rw [countTargets_setA_concat _ _ _ _ _ hl]
      rw [hi n]

theorem invDBG_processWindow (st : DBG) (s : Sq) (i : Nat) (h : InvDBG st) :
    InvDBG (processWindow st s i) := by
  by_cases h2 : ((s.drop i).take st.k).any notACGT
  · simpa [processWindow, h2] using h
  · simpa [processWindow, h2] using
      invDBG_addDbgEdge st ((s.drop i).take st.k).dropLast
        (((s.drop i).take st.k).drop 1) h

theorem invDBG_processRead (st : DBG) (s : Sq) (h : InvDBG st) :
    InvDBG (processRead st s) := by
  unfold processRead
  split
  · exact h
  · exact foldl_preserves_mem InvDBG _ _ st h
      (fun st2 i _ h2 => invDBG_processWindow st2 s i h2)

theorem invDBG_init (k : Nat) : InvDBG (initDBG k) := by
  constructor <;> intro n <;> simp [initDBG, degGet, lookupA, countTargets]

/-- C9: after `build_graph` on any read list, every node's out-degree
counter equals the length of its adjacency list and its in-degree counter
equals the number of adjacency entries pointing at it (the consistency is
established per edge insertion by `invDBG_addDbgEdge`). -/
theorem c9_degree_consistency (k : Nat) (reads : List (String × Sq)) (n : Node) :
    degGet (build_graph (initDBG k) reads).out_degree n =
        ((lookupA (build_graph (initDBG k) reads).graph n).getD []).length ∧
      degGet (build_graph (initDBG k) reads).in_degree n =
        countTargets n (build_graph (initDBG k) reads).graph := by
  have h : InvDBG (build_graph (initDBG k) reads) := by
    unfold build_graph
    exact foldl_preserves_mem InvDBG _ _ _ (invDBG_init k)
      (fun st2 r _ h2 => invDBG_processRead st2 r.2 h2)
  exact ⟨h.1 n, h.2 n⟩

theorem onlyEmpty_refl (g : List (Node × List Node)) : OnlyEmpty g g :=
  ⟨[], by simp, by simp⟩

theorem onlyEmpty_trans {a b c : List (Node × List Node)}
    (h1 : OnlyEmpty a b) (h2 : OnlyEmpty b c) : OnlyEmpty a c := by
  obtain ⟨e1, rfl, he1⟩ := h1
  obtain ⟨e2, rfl, he2⟩ := h2
  refine ⟨e1 ++ e2, by simp, ?_⟩
  intro p hp
  rcases List.mem_append.mp hp with h | h
  · exact he1 p h
  · exact he2 p h

theorem onlyEmpty_dgetA (g : List (Node × List Node)) (x : Node) :
    OnlyEmpty g (dgetA g x).2 := by
  unfold dgetA
  cases h : lookupA g x with
  | some v => exact onlyEmpty_refl g
  | none => exact ⟨[(x, [])], rfl, by simp⟩

theorem onlyEmpty_extendContig :
    ∀ (f : Nat) (g : List (Node × List Node)) (inD : List (Node × Nat))
      (visited : List Node) (cur : Node) (tail : Sq),
      OnlyEmpty g (extendContig f g inD visited cur tail).2.2 := by
  intro f
  induction f with
  | zero => intro g inD visited cur tail; exact onlyEmpty_refl g
  | succ f ih =>
      intro g inD visited cur tail
      have hd : OnlyEmpty g (dgetA g cur).2 := onlyEmpty_dgetA g cur
      rw [extendContig]
      cases h1 : (dgetA g cur).1 with
      | nil => simpa [h1] using hd
      | cons n rest =>
          cases rest with
          | nil =>
              by_cases h2 : degGet inD n = 1
              · by_cases h3 : n ∈ cur :: visited
                · simpa [h1, h2, h3] using hd
                · simpa [h1, h2, h3] using
                    onlyEmpty_trans hd (ih (dgetA g cur).2 inD (cur :: visited) n
                      (tail ++ lastCharOf n))
              · simpa [h1, h2] using hd
          | cons m ms => simpa [h1] using hd

/-- C3, amended: `find_contigs` never touches the recorded bindings of
the graph; it only appends bindings with empty adjacency lists (sink
nodes reached by the traversal are auto-vivified by the `defaultdict`
read), so every pre-existing key keeps its adjacency list and the edge
set is unchanged, but the key set can grow. -/
theorem c3_amended_only_sinks_added (st : DBG) :
    OnlyEmpty st.graph (find_contigs st).2.graph := by
  unfold find_contigs
  refine foldl_preserves_mem
    (fun acc : List Sq × List Node × List (Node × List Node) =>
      OnlyEmpty st.graph acc.2.2) _ (startNodesDBG st) ([], [], st.graph)
    (onlyEmpty_refl st.graph) ?_
  intro acc strt _ hacc
  have he := onlyEmpty_trans hacc (onlyEmpty_extendContig (contigFuel st)
    acc.2.2 st.in_degree acc.2.1 strt [])
  dsimp only
  split
  · exact hacc
  · split
    · exact he
    · exact he

theorem mem_setA {α β : Type} [DecidableEq α] :
    ∀ (l : List (α × β)) (x : α) (v : β) (p : α × β),
      p ∈ setA l x v → p ∈ l ∨ p = (x, v) := by
  intro l x v
  induction l with
  | nil => intro p hp; simp [setA] at hp; simp [hp]
  | cons q rest ih =>
      obtain ⟨k, w⟩ := q
      intro p hp
      by_cases hxk : x = k
      · subst hxk
        simp only [setA, if_pos rfl] at hp
        rcases List.mem_cons.mp hp with h | h
        · exact Or.inr h
        · exact Or.inl (List.mem_cons_of_mem _ h)
      · simp only [setA, if_neg hxk] at hp
        rcases List.mem_cons.mp hp with h | h
        · exact Or.inl (h ▸ List.mem_cons_self _ _)
        · rcases ih p h with h2 | h2
          · exact Or.inl (List.mem_cons_of_mem _ h2)
          · exact Or.inr h2

theorem mem_dgetA_snd {α β : Type} [DecidableEq α] (l : List (α × List β))
    (x : α) (p : α × List β) (hp : p ∈ (dgetA l x).2) :
    p ∈ l ∨ p = (x, []) := by
  unfold dgetA at hp
  cases h : lookupA l x with
  | some v => rw [h] at hp; exact Or.inl hp
  | none =>
      rw [h] at hp
      rcases List.mem_append.mp hp with h2 | h2
      · exact Or.inl h2
      · exact Or.inr (List.mem_singleton.mp h2)

theorem addDbgEdge_k (st : DBG) (pre suf : Node) :
    (addDbgEdge st pre suf).k = st.k := by
  by_cases h : suf ∈ (dgetA st.graph pre).1 <;> simp [addDbgEdge, h]

theorem keysLen_addDbgEdge (st : DBG) (pre suf : Node)
    (hpre : pre.length = st.k - 1)
    (h : ∀ p ∈ st.graph, p.1.length = st.k - 1) :
    ∀ p ∈ (addDbgEdge st pre suf).graph, p.1.length = st.k - 1 := by
  intro p hp
  by_cases hmem : suf ∈ (dgetA st.graph pre).1
  · simp only [addDbgEdge, hmem, if_pos] at hp
    rcases mem_dgetA_snd st.graph pre p hp with h2 | h2
    · exact h p h2
    · rw [h2]; exact hpre
  · simp only [addDbgEdge, hmem, if_false, ite_false] at hp
    rcases mem_setA _ _ _ p hp with h2 | h2
    · rcases mem_dgetA_snd st.graph pre p h2 with h3 | h3
      · exact h p h3
      · rw [h3]; exact hpre
    · rw [h2]; exact hpre

theorem keysLen_processWindow (st : DBG) (s : Sq) (i : Nat)
    (hlen : st.k ≤ s.length - i)
    (h : ∀ p ∈ st.graph, p.1.length = st.k - 1) :
    ∀ p ∈ (processWindow st s i).graph, p.1.length = st.k - 1 := by
  have hk : ((s.drop i).take st.k).length = st.k := by
    simp [List.length_take, List.length_drop]
    omega
  have hd : (((s.drop i).take st.k).dropLast).length = st.k - 1 := by
    rw [List.length_dropLast, hk]
  intro p hp
  by_cases h2 : ((s.drop i).take st.k).any notACGT
  · simp only [processWindow, h2, if_pos] at hp
    exact h p hp
  · simp only [processWindow, h2] at hp
    rw [if_neg (by simp [h2])] at hp
    exact keysLen_addDbgEdge st _ _ hd h p hp

theorem processWindow_k (st : DBG) (s : Sq) (i : Nat) :
    (processWindow st s i).k = st.k := by
  by_cases h2 : ((s.drop i).take st.k).any notACGT <;>
    simp [processWindow, h2, addDbgEdge_k]

theorem keysLen_processRead (st : DBG) (s : Sq)
    (h : ∀ p ∈ st.graph, p.1.length = st.k - 1) :
    (processRead st s).k = st.k ∧
      ∀ p ∈ (processRead st s).graph, p.1.length = st.k - 1 := by
  unfold processRead
  split
  · exact ⟨rfl, h⟩
  · rename_i hg
    refine foldl_preserves_mem
      (fun t : DBG => t.k = st.k ∧ ∀ p ∈ t.graph, p.1.length = st.k - 1)
      (fun t i => processWindow t s i) (List.range (s.length - st.k + 1)) st
      ⟨rfl, h⟩ ?_
    intro t i hi ht
    obtain ⟨htk, htg⟩ := ht
    have hik : i < s.length - st.k + 1 := List.mem_range.mp hi
    have hlen : t.k ≤ s.length - i := by rw [htk]; omega
    have hgt : ∀ p ∈ t.graph, p.1.length = t.k - 1 := by rw [htk]; exact htg
    have hres := keysLen_processWindow t s i hlen hgt
    constructor
    · rw [processWindow_k, htk]
    · intro p hp
      rw [← htk]
      exact hres p hp

theorem keysLen_build_graph (k : Nat) (reads : List (String × Sq)) :
    (build_graph (initDBG k) reads).k = k ∧
      ∀ p ∈ (build_graph (initDBG k) reads).graph, p.1.length = k - 1 := by
  unfold build_graph
  refine foldl_preserves_mem
    (fun t : DBG => t.k = k ∧ ∀ p ∈ t.graph, p.1.length = k - 1)
    (fun t r => processRead t r.2) reads (initDBG k) ⟨rfl, by simp [initDBG]⟩ ?_
  intro t r _ ht
  have := keysLen_processRead t r.2 (by rw [ht.1]; exact ht.2)
  rw [ht.1] at this
  exact ⟨this.1, this.2⟩

theorem flatMap_congr_mem {α β : Type} (l : List α) (f g : α → List β)
    (h : ∀ a ∈ l, f a = g a) : l.flatMap f = l.flatMap g := by
  induction l with
  | nil => rfl
  | cons a rest ih =>
      simp only [List.flatMap_cons]
      rw [h a (List.mem_cons_self a rest),
        ih (fun a2 h2 => h a2 (List.mem_cons_of_mem a h2))]

/-- C4, counterexample: on the Scenario A graph (k = 4) the exported GFA
contains the link line with overlap field 2M (= k − 2), not the claimed
3M (= k − 1). -/
theorem c4_cex :
    "L\tACG\t+\tCGT\t+\t2M".toList ∈
        write_gfa_lines (build_graph (initDBG 4) readsA).graph ∧
      "L\tACG\t+\tCGT\t+\t3M".toList ∉
        write_gfa_lines (build_graph (initDBG 4) readsA).graph := by
  refine ⟨by decide, by decide⟩

/-- C4, amended: for every graph built with parameter k ≥ 1, the exported
GFA consists of the header `H\tVN:Z:1.0`, exactly one segment line per
stored node, and for every edge exactly one link line whose overlap field
is k − 2 (the code writes `len(node) - 1` and every stored node is a
(k − 1)-mer). -/
theorem c4_amended_gfa (k : Nat) (reads : List (String × Sq)) (hk : 1 ≤ k) :
    write_gfa_lines (build_graph (initDBG k) reads).graph =
      gfaHeader ::
        (((build_graph (initDBG k) reads).graph.map fun p => segLine p.1) ++
          ((build_graph (initDBG k) reads).graph.flatMap fun p =>
            p.2.map fun v => linkLine p.1 v ((k : Int) - 2))) := by
  unfold write_gfa_lines
  have hlen := (keysLen_build_graph k reads).2
  congr 2
  refine flatMap_congr_mem _ _ _ ?_
  intro p hp
  have h2 : ((p.1.length : Int) - 1) = ((k : Int) - 2) := by
    rw [hlen p hp]
    have : ((k - 1 : Nat) : Int) = (k : Int) - 1 := by omega
    rw [this]
    ring
  rw [h2]

/-- C4 witness: the amended GFA description instantiated on Scenario A
with k = 4 (overlap field 2M). -/
theorem c4_amended_gfa_witness :
    write_gfa_lines (build_graph (initDBG 4) readsA).graph =
      gfaHeader ::
        (((build_graph (initDBG 4) readsA).graph.map fun p => segLine p.1) ++
          ((build_graph (initDBG 4) readsA).graph.flatMap fun p =>
            p.2.map fun v => linkLine p.1 v ((4 : Int) - 2))) :=
  c4_amended_gfa 4 readsA (by decide)

theorem lookupA_mem {α β : Type} [DecidableEq α] :
    ∀ (l : List (α × β)) (x : α) (v : β), lookupA l x = some v → (x, v) ∈ l := by
  intro l x v
  induction l with
  | nil => intro h; simp [lookupA] at h
  | cons p rest ih =>
      obtain ⟨k, w⟩ := p
      intro h
      by_cases hxk : x = k
      · subst hxk
        simp [lookupA] at h
        subst h
        exact List.mem_cons_self _ _
      · simp only [lookupA, if_neg hxk] at h
        exact List.mem_cons_of_mem _ (ih h)

theorem addNodeOG_adj (g : OGraph) (u : String) : (addNodeOG g u).adj = g.adj := by
  unfold addNodeOG
  split <;> rfl

theorem edgesW_addEdge (g : OGraph) (u v : String) (w : Nat)
    (x y : String) (z : Nat)
    (h : (x, y, z) ∈ edgesWOG (addEdgeOG g u v w)) :
    (x, y, z) ∈ edgesWOG g ∨ (x = u ∧ y = v ∧ z = w) := by
  cases hu : lookupA g.adj u with
  | some l =>
      have hadj : (addEdgeOG g u v w).adj = setA g.adj u (setA l v w) := by
        unfold addEdgeOG
        simp only [addNodeOG_adj, hu]
      unfold edgesWOG at h
      rw [hadj] at h
      simp only [List.mem_flatMap] at h
      obtain ⟨p, hp, hpe⟩ := h
      rcases mem_setA _ _ _ p hp with h2 | h2
      · exact Or.inl (by
          unfold edgesWOG
          simp only [List.mem_flatMap]
          exact ⟨p, h2, hpe⟩)
      · subst h2
        simp only [List.mem_map] at hpe
        obtain ⟨q, hq, hqe⟩ := hpe
        rcases mem_setA _ _ _ q hq with h3 | h3
        · refine Or.inl (by
            unfold edgesWOG
            simp only [List.mem_flatMap]
            exact ⟨(u, l), lookupA_mem g.adj u l hu, by
              simp only [List.mem_map]
              exact ⟨q, h3, hqe⟩⟩)
        · subst h3
          right
          simp only [Prod.mk.injEq] at hqe
          exact ⟨hqe.1.symm, hqe.2.1.symm, hqe.2.2.symm⟩
  | none =>
      have hadj : (addEdgeOG g u v w).adj = g.adj ++ [(u, [(v, w)])] := by
        unfold addEdgeOG
        simp only [addNodeOG_adj, hu]
      unfold edgesWOG at h ⊢
      rw [hadj] at h
      rw [List.flatMap_append] at h
      rcases List.mem_append.mp h with h2 | h2
      · exact Or.inl h2
      · right
        simp only [List.flatMap_cons, List.map_cons, List.map_nil,
          List.flatMap_nil, List.append_nil, List.mem_singleton,
          Prod.mk.injEq] at h2
        exact h2

theorem mem_kRange (eff minlen stp k2 : Nat) (h : k2 ∈ kRange eff minlen stp) :
    eff ≤ k2 ∧ k2 ≤ minlen := by
  unfold kRange at h
  rw [List.mem_range'] at h
  obtain ⟨i, hi, rfl⟩ := h
  by_cases hstp : stp = 0
  · subst hstp
    rw [Nat.div_zero] at hi
    omega
  · have h1 : (((minlen + 1) - eff + (stp - 1)) / stp) * stp ≤
        (minlen + 1) - eff + (stp - 1) :=
      Nat.div_mul_le_self _ _
    have h2 : (i + 1) * stp ≤ (((minlen + 1) - eff + (stp - 1)) / stp) * stp :=
      Nat.mul_le_mul_right stp hi
    have h3 : (i + 1) * stp = i * stp + stp := by ring
    have h4 : stp * i = i * stp := by ring
    omega

theorem foldl_max_mem : ∀ (l : List Nat) (a : Nat),
    l.foldl max a = a ∨ l.foldl max a ∈ l := by
  intro l
  induction l with
  | nil => intro a; exact Or.inl rfl
  | cons b rest ih =>
      intro a
      rcases ih (max a b) with h | h
      · rcases max_choice a b with h2 | h2
        · rw [List.foldl_cons, h, h2]; exact Or.inl rfl
        · rw [List.foldl_cons, h, h2]
          exact Or.inr (List.mem_cons_self _ _)
      · exact Or.inr (List.mem_cons_of_mem _ h)

theorem refineMax_spec (si sj : Sq) (a b : Nat) :
    refineMax si sj a b = 0 ∨
      (pySuffix si (refineMax si sj a b) =
          List.take (refineMax si sj a b) sj ∧
        a ≤ refineMax si sj a b ∧ refineMax si sj a b ≤ b) := by
  unfold refineMax
  rcases foldl_max_mem
      ((List.range' a (b + 1 - a)).filter
        (fun ek => pySuffix si ek == List.take ek sj)) 0 with h | h
  · exact Or.inl h
  · right
    obtain ⟨hr, hp⟩ := List.mem_filter.mp h
    rw [List.mem_range'_1] at hr
    refine ⟨by simpa using hp, hr.1, by omega⟩

theorem overlapProp (si sj : Sq) (w : Nat)
    (hmatch : w ≠ 0 → pySuffix si w = List.take w sj) :
    si.drop (si.length - w) = List.take w sj := by
  by_cases h0 : w = 0
  · subst h0
    simp
  · have := hmatch h0
    unfold pySuffix at this
    rw [if_neg h0] at this
    exact this

theorem findOverlapLen_eq (eff stp : Nat) (si sj : Sq) :
    findOverlapLen eff stp si sj =
      match (kRange eff (min si.length sj.length) stp).find?
          (fun k => pySuffix si k == List.take k sj) with
      | none => 0
      | some k =>
          if 1 < stp then
            refineMax si sj (max (k - stp) eff)
              (min (k + stp) (min si.length sj.length))
          else k := rfl

theorem findOverlapLen_spec (eff stp : Nat) (si sj : Sq) :
    findOverlapLen eff stp si sj ≤ si.length ∧
      findOverlapLen eff stp si sj ≤ sj.length ∧
      si.drop (si.length - findOverlapLen eff stp si sj) =
        List.take (findOverlapLen eff stp si sj) sj := by
  cases hf : (kRange eff (min si.length sj.length) stp).find?
      (fun k => pySuffix si k == List.take k sj) with
  | none =>
      have hw : findOverlapLen eff stp si sj = 0 := by
        rw [findOverlapLen_eq, hf]
      rw [hw]
      exact ⟨Nat.zero_le _, Nat.zero_le _, by simp⟩
  | some k =>
      have hk := mem_kRange eff (min si.length sj.length) stp k
        (List.mem_of_find?_eq_some hf)
      have hk1 : k ≤ si.length := le_trans hk.2 (min_le_left _ _)
      have hk2 : k ≤ sj.length := le_trans hk.2 (min_le_right _ _)
      have hpred : pySuffix si k = List.take k sj := by
        have := List.find?_some hf
        simpa using this
      by_cases hstp : 1 < stp
      · have hw : findOverlapLen eff stp si sj =
            refineMax si sj (max (k - stp) eff)
              (min (k + stp) (min si.length sj.length)) := by
          rw [findOverlapLen_eq, hf]
          exact if_pos hstp
        rw [hw]
        rcases refineMax_spec si sj (max (k - stp) eff)
            (min (k + stp) (min si.length sj.length)) with h | h
        · rw [h]
          exact ⟨Nat.zero_le _, Nat.zero_le _, by simp⟩
        · obtain ⟨hm, hlo, hhi⟩ := h
          have hwmin : refineMax si sj (max (k - stp) eff)
              (min (k + stp) (min si.length sj.length)) ≤
                min si.length sj.length :=
            le_trans hhi (min_le_right _ _)
          exact ⟨le_trans hwmin (min_le_left _ _),
            le_trans hwmin (min_le_right _ _),
            overlapProp si sj _ (fun _ => hm)⟩
      · have hw : findOverlapLen eff stp si sj = k := by
          rw [findOverlapLen_eq, hf]
          exact if_neg hstp
        rw [hw]
        exact ⟨hk1, hk2, overlapProp si sj k (fun _ => hpred)⟩

theorem mem_enumFrom_snd {α : Type} :
    ∀ (l : List α) (n : Nat) (p : Nat × α), p ∈ List.enumFrom n l → p.2 ∈ l := by
  intro l
  induction l with
  | nil => intro n p hp; simp [List.enumFrom] at hp
  | cons a rest ih =>
      intro n p hp
      rw [List.enumFrom] at hp
      rcases List.mem_cons.mp hp with h | h
      · rw [h]; exact List.mem_cons_self _ _
      · exact List.mem_cons_of_mem _ (ih (n + 1) p h)

/-- C5: every edge i → j recorded by `find_overlaps` with weight w joins
two working reads whose sequences agree on the last w characters of the
source and the first w characters of the target (for both strides,
including after refinement), and w is at least the effective minimum
overlap. -/
theorem c5_overlap_edges (m : Nat) (reads : List (String × Sq)) (u v : String)
    (w : Nat) (hmem : (u, v, w) ∈ edgesWOG (find_overlaps m reads)) :
    effMinOverlap m (workingReads reads) ≤ w ∧
      ∃ su sv, (u, su) ∈ workingReads reads ∧ (v, sv) ∈ workingReads reads ∧
        w ≤ su.length ∧ w ≤ sv.length ∧
        su.drop (su.length - w) = List.take w sv := by
  have heq : find_overlaps m reads =
      (workingReads reads).enum.foldl (fun g pi =>
        (workingReads reads).enum.foldl (fun g2 pj =>
          if pi.1 = pj.1 then g2
          else
            if effMinOverlap m (workingReads reads) ≤
                findOverlapLen (effMinOverlap m (workingReads reads))
                  (strideFor (workingReads reads)) pi.2.2 pj.2.2 then
              addEdgeOG g2 pi.2.1 pj.2.1
                (findOverlapLen (effMinOverlap m (workingReads reads))
                  (strideFor (workingReads reads)) pi.2.2 pj.2.2)
            else g2) g) emptyOG := rfl
  rw [heq] at hmem
  refine foldl_preserves_mem
    (fun g : OGraph => ∀ u2 v2 w2, (u2, v2, w2) ∈ edgesWOG g →
      effMinOverlap m (workingReads reads) ≤ w2 ∧
        ∃ su sv, (u2, su) ∈ workingReads reads ∧
          (v2, sv) ∈ workingReads reads ∧ w2 ≤ su.length ∧ w2 ≤ sv.length ∧
          su.drop (su.length - w2) = List.take w2 sv)
    _ (workingReads reads).enum emptyOG
    (by intro u2 v2 w2 h2; simp [edgesWOG, emptyOG] at h2) ?_ u v w hmem
  intro g pi hpi hg
  refine foldl_preserves_mem
    (fun g : OGraph => ∀ u2 v2 w2, (u2, v2, w2) ∈ edgesWOG g →
      effMinOverlap m (workingReads reads) ≤ w2 ∧
        ∃ su sv, (u2, su) ∈ workingReads reads ∧
          (v2, sv) ∈ workingReads reads ∧ w2 ≤ su.length ∧ w2 ≤ sv.length ∧
          su.drop (su.length - w2) = List.take w2 sv)
    _ (workingReads reads).enum g hg ?_
  intro g2 pj hpj hg2
  intro u2 v2 w2 h2
  by_cases hij : pi.1 = pj.1
  · rw [if_pos hij] at h2
    exact hg2 u2 v2 w2 h2
  · rw [if_neg hij] at h2
    by_cases hle : effMinOverlap m (workingReads reads) ≤
        findOverlapLen (effMinOverlap m (workingReads reads))
          (strideFor (workingReads reads)) pi.2.2 pj.2.2
    · rw [if_pos hle] at h2
      rcases edgesW_addEdge g2 pi.2.1 pj.2.1 _ u2 v2 w2 h2 with h3 | h3
      · exact hg2 u2 v2 w2 h3
      · obtain ⟨rfl, rfl, rfl⟩ := h3
        have hspec := findOverlapLen_spec
          (effMinOverlap m (workingReads reads))
          (strideFor (workingReads reads)) pi.2.2 pj.2.2
        exact ⟨hle, pi.2.2, pj.2.2,
          by simpa using mem_enumFrom_snd _ 0 pi hpi,
          by simpa using mem_enumFrom_snd _ 0 pj hpj,
          hspec.1, hspec.2.1, hspec.2.2⟩
    · rw [if_neg hle] at h2
      exact hg2 u2 v2 w2 h2

/-- C5 witness: Scenario B instantiation; the edge r0 → r1 with weight 4
joins "AAAACCCC" and "CCCCGGGG", whose last/first four characters agree. -/
theorem c5_overlap_edges_witness :
    effMinOverlap 4 (workingReads readsB) ≤ 4 ∧
      ∃ su sv, ("r0", su) ∈ workingReads readsB ∧
        ("r1", sv) ∈ workingReads readsB ∧ 4 ≤ su.length ∧ 4 ≤ sv.length ∧
        su.drop (su.length - 4) = List.take 4 sv :=
  c5_overlap_edges 4 readsB "r0" "r1" 4 (by decide)

/-- C7, amended: for a two-read path [a, b] whose recorded edge weight is
less than the second read's length, `generate_consensus` emits exactly
read_a concatenated with read_b from offset w onward; when the weight
reaches the second read's length the offset is clamped to len − 1 instead
(Scenario B satisfies the hypothesis: weight 4 < 8, contig
"AAAACCCCGGGG"). -/
theorem c7_two_read_consensus (g : OGraph) (dict : List (String × Sq))
    (a b : String) (sa sb : Sq) (ha : lookupA dict a = some sa)
    (hb : lookupA dict b = some sb) (hw : weightOG g a b < sb.length) :
    generate_consensus g [[a, b]] dict = [sa ++ sb.drop (weightOG g a b)] := by
  have hclip : clipOverlap (weightOG g a b) sb.length = weightOG g a b := by
    unfold clipOverlap
    exact if_neg (by omega)
  simp only [generate_consensus, stitchPath, List.map_cons, List.map_nil,
    List.foldl_cons, List.foldl_nil, ha, hb, Option.getD_some, hclip,
    List.isEmpty_cons, Bool.false_and, Bool.and_eq_true, if_false]
  rfl

/-- C7 witness: Scenario B run end to end; the recorded edge r0 → r1 has
weight 4 and the consensus contig is "AAAACCCC" ++ drop 4 "CCCCGGGG" =
"AAAACCCCGGGG". -/
theorem c7_two_read_consensus_witness :
    find_paths (find_overlaps 4 readsB) = [["r0", "r1"]] ∧
      weightOG (find_overlaps 4 readsB) "r0" "r1" = 4 ∧
      olcPipeline 4 readsB = ["AAAACCCCGGGG".toList] ∧
      generate_consensus (find_overlaps 4 readsB) [["r0", "r1"]]
          (mkReadDict readsB) =
        ["AAAACCCC".toList ++
          ("CCCCGGGG".toList).drop
            (weightOG (find_overlaps 4 readsB) "r0" "r1")] :=
  ⟨rfl, rfl, rfl,
    c7_two_read_consensus (find_overlaps 4 readsB) (mkReadDict readsB)
      "r0" "r1" "AAAACCCC".toList "CCCCGGGG".toList rfl rfl (by decide)⟩

theorem pickMaxBy_mem {α : Type} (f : α → Nat) :
    ∀ (xs : List α) (x : α), pickMaxBy f x xs ∈ x :: xs := by
  intro xs
  induction xs with
  | nil => intro x; exact List.mem_cons_self _ _
  | cons a rest ih =>
      intro x
      have h1 : pickMaxBy f x (a :: rest) =
          pickMaxBy f (if f x < f a then a else x) rest := rfl
      rw [h1]
      rcases List.mem_cons.mp (ih (if f x < f a then a else x)) with h | h
      · rw [h]
        by_cases h2 : f x < f a
        · rw [if_pos h2]
          exact List.mem_cons_of_mem _ (List.mem_cons_self _ _)
        · rw [if_neg h2]
          exact List.mem_cons_self _ _
      · exact List.mem_cons_of_mem _ (List.mem_cons_of_mem _ h)

theorem unvisitedOut_spec (g : OGraph) (visited : List (String × String))
    (u : String) (e : String × String) (h : e ∈ unvisitedOut g visited u) :
    e ∈ edgesOG g ∧ e ∉ visited ∧ e.1 = u := by
  obtain ⟨hmap, hdec⟩ := List.mem_filter.mp h
  have hnv : e ∉ visited := by simpa using hdec
  simp only [List.mem_map] at hmap
  obtain ⟨q, hq, hqe⟩ := hmap
  refine ⟨?_, hnv, by rw [← hqe]⟩
  unfold succsOG at hq
  cases hl : lookupA g.adj u with
  | none => rw [hl] at hq; simp at hq
  | some l =>
      rw [hl] at hq
      simp only [Option.getD_some] at hq
      unfold edgesOG
      simp only [List.mem_flatMap]
      exact ⟨(u, l), lookupA_mem g.adj u l hl, by
        simp only [List.mem_map]
        exact ⟨q, hq, hqe⟩⟩

theorem consecPairs_cons_cons (a b : String) (l : List String) :
    consecPairs (a :: b :: l) = (a, b) :: consecPairs (b :: l) := rfl

theorem consecPairs_concat :
    ∀ (p : List String) (c t : String), p.getLast? = some c →
      consecPairs (p ++ [t]) = consecPairs p ++ [(c, t)] := by
  intro p
  induction p with
  | nil => intro c t h; simp at h
  | cons a rest ih =>
      intro c t h
      cases rest with
      | nil =>
          simp only [List.getLast?_singleton, Option.some.injEq] at h
          subst h
          rfl
      | cons b rest2 =>
          rw [List.getLast?_cons_cons] at h
          have h2 : (a :: b :: rest2) ++ [t] = a :: b :: (rest2 ++ [t]) := rfl
          rw [h2, consecPairs_cons_cons]
          have h3 : (b :: rest2) ++ [t] = b :: (rest2 ++ [t]) := rfl
          rw [← h3, ih c t h, consecPairs_cons_cons]
          rfl

theorem pathPairs_append_single (ps : List (List String)) (p : List String) :
    pathPairs (ps ++ [p]) = pathPairs ps ++ consecPairs p := by
  simp [pathPairs]

theorem extendPath_inv (g : OGraph) :
    ∀ (f : Nat) (visited : List (String × String)) (path : List String)
      (cur : String) (P : List (String × String)),
      PathInv g (P ++ consecPairs path) visited →
      path.getLast? = some cur →
      PathInv g (P ++ consecPairs (extendPath f g visited path cur).1)
        (extendPath f g visited path cur).2 := by
  intro f
  induction f with
  | zero =>
      intro visited path cur P hJ _
      simpa [extendPath] using hJ
  | succ f ih =>
      intro visited path cur P hJ hlast
      rw [extendPath]
      cases hout : unvisitedOut g visited cur with
      | nil => exact hJ
      | cons e es =>
          have hbm : pickMaxBy (fun e2 => weightOG g e2.1 e2.2) e es ∈
              unvisitedOut g visited cur := by
            rw [hout]
            exact pickMaxBy_mem _ es e
          obtain ⟨hbe, hbv, hb1⟩ := unvisitedOut_spec g visited cur _ hbm
          dsimp only
          by_cases hcyc : (pickMaxBy (fun e2 => weightOG g e2.1 e2.2) e es).2 ∈ path
          · rw [if_pos hcyc]
            refine ⟨hJ.1, fun e2 he2 => List.mem_cons_of_mem _ (hJ.2.1 e2 he2),
              fun e2 he2 => ?_⟩
            rcases List.mem_cons.mp he2 with h2 | h2
            · rw [h2]; exact hbe
            · exact hJ.2.2 e2 h2
          · rw [if_neg hcyc]
            have hbeq : (cur, (pickMaxBy (fun e2 => weightOG g e2.1 e2.2) e es).2) =
                pickMaxBy (fun e2 => weightOG g e2.1 e2.2) e es := by
              rw [← hb1]
            have hpairs : consecPairs
                (path ++ [(pickMaxBy (fun e2 => weightOG g e2.1 e2.2) e es).2]) =
                consecPairs path ++
                  [pickMaxBy (fun e2 => weightOG g e2.1 e2.2) e es] := by
              rw [consecPairs_concat path cur _ hlast, hbeq]
            have hJ2 : PathInv g
                (P ++ consecPairs
                  (path ++ [(pickMaxBy (fun e2 => weightOG g e2.1 e2.2) e es).2]))
                (pickMaxBy (fun e2 => weightOG g e2.1 e2.2) e es :: visited) := by
              rw [hpairs, ← List.append_assoc]
              refine ⟨?_, ?_, ?_⟩
              · rw [List.nodup_append]
                refine ⟨hJ.1, List.nodup_singleton _, ?_⟩
                intro a ha hb
                rw [List.mem_singleton.mp hb] at ha
                exact hbv (hJ.2.1 _ ha)
              · intro e2 he2
                rcases List.mem_append.mp he2 with h2 | h2
                · exact List.mem_cons_of_mem _ (hJ.2.1 e2 h2)
                · rw [List.mem_singleton.mp h2]
                  exact List.mem_cons_self _ _
              · intro e2 he2
                rcases List.mem_cons.mp he2 with h2 | h2
                · rw [h2]; exact hbe
                · exact hJ.2.2 e2 h2
            have hlast2 : (path ++
                [(pickMaxBy (fun e2 => weightOG g e2.1 e2.2) e es).2]).getLast? =
                some (pickMaxBy (fun e2 => weightOG g e2.1 e2.2) e es).2 :=
              List.getLast?_concat _
            exact ih _ _ _ P hJ2 hlast2

theorem emit_inv (g : OGraph) (acc : List (List String))
    (r : List String × List (String × String))
    (h : PathInv g (pathPairs acc ++ consecPairs r.1) r.2) :
    PathInv g
      (pathPairs ((if 1 < r.1.length then (acc ++ [r.1], r.2)
        else (acc, r.2)).1))
      ((if 1 < r.1.length then (acc ++ [r.1], r.2) else (acc, r.2)).2) := by
  by_cases hl : 1 < r.1.length
  · rw [if_pos hl]
    dsimp only
    rw [pathPairs_append_single]
    exact h
  · rw [if_neg hl]
    exact ⟨h.1.of_append_left,
      fun e he => h.2.1 e (List.mem_append.mpr (Or.inl he)), h.2.2⟩

theorem buildGreedyPaths_inv (g : OGraph) (strt : String)
    (pathsAcc : List (List String)) (visited : List (String × String))
    (startEdge : Option (String × String))
    (hJ : PathInv g (pathPairs pathsAcc) visited)
    (hse : ∀ e, startEdge = some e → e ∈ edgesOG g ∧ e ∉ visited) :
    PathInv g
      (pathPairs (buildGreedyPaths g strt pathsAcc visited startEdge).1)
      (buildGreedyPaths g strt pathsAcc visited startEdge).2 := by
  cases startEdge with
  | none =>
      have hJ0 : PathInv g (pathPairs pathsAcc ++ consecPairs [strt])
          visited := by
        simpa [consecPairs] using hJ
      exact emit_inv g pathsAcc _
        (extendPath_inv g ((edgesOG g).length + 1) visited [strt] strt
          (pathPairs pathsAcc) hJ0 rfl)
  | some e =>
      obtain ⟨hee, hev⟩ := hse e rfl
      by_cases h1 : e.1 = strt
      · have hJ1 : PathInv g (pathPairs pathsAcc ++ consecPairs [strt, e.2])
            (e :: visited) := by
          have hpe : consecPairs [strt, e.2] = [e] := by
            simp only [consecPairs, List.zip_cons_cons, List.tail_cons,
              List.zip_nil_right]
            rw [← h1]
          rw [hpe]
          refine ⟨?_, ?_, ?_⟩
          · rw [List.nodup_append]
            refine ⟨hJ.1, List.nodup_singleton _, ?_⟩
            intro a ha hb
            rw [List.mem_singleton.mp hb] at ha
            exact hev (hJ.2.1 _ ha)
          · intro e2 he2
            rcases List.mem_append.mp he2 with h2 | h2
            · exact List.mem_cons_of_mem _ (hJ.2.1 e2 h2)
            · rw [List.mem_singleton.mp h2]
              exact List.mem_cons_self _ _
          · intro e2 he2
            rcases List.mem_cons.mp he2 with h2 | h2
            · rw [h2]; exact hee
            · exact hJ.2.2 e2 h2
        have hext := extendPath_inv g ((edgesOG g).length + 1) (e :: visited)
          [strt, e.2] e.2 (pathPairs pathsAcc) hJ1 rfl
        have hred : buildGreedyPaths g strt pathsAcc visited (some e) =
            (if 1 < (extendPath ((edgesOG g).length + 1) g (e :: visited)
                [strt, e.2] e.2).1.length then
              (pathsAcc ++ [(extendPath ((edgesOG g).length + 1) g
                (e :: visited) [strt, e.2] e.2).1],
                (extendPath ((edgesOG g).length + 1) g (e :: visited)
                  [strt, e.2] e.2).2)
            else (pathsAcc, (extendPath ((edgesOG g).length + 1) g
              (e :: visited) [strt, e.2] e.2).2)) := by
          unfold buildGreedyPaths
          dsimp only
          rw [if_pos h1]
        rw [hred]
        exact emit_inv g pathsAcc _ hext
      · have hJ0 : PathInv g (pathPairs pathsAcc ++ consecPairs [strt])
            visited := by
          simpa [consecPairs] using hJ
        have hext := extendPath_inv g ((edgesOG g).length + 1) visited [strt]
          strt (pathPairs pathsAcc) hJ0 rfl
        have hred : buildGreedyPaths g strt pathsAcc visited (some e) =
            (if 1 < (extendPath ((edgesOG g).length + 1) g visited
                [strt] strt).1.length then
              (pathsAcc ++ [(extendPath ((edgesOG g).length + 1) g visited
                [strt] strt).1],
                (extendPath ((edgesOG g).length + 1) g visited [strt] strt).2)
            else (pathsAcc, (extendPath ((edgesOG g).length + 1) g visited
              [strt] strt).2)) := by
          unfold buildGreedyPaths
          dsimp only
          rw [if_neg h1]
        rw [hred]
        exact emit_inv g pathsAcc _ hext

theorem remainingLoop_inv (g : OGraph) :
    ∀ (f : Nat) (paths : List (List String))
      (visited : List (String × String)),
      PathInv g (pathPairs paths) visited →
      PathInv g (pathPairs (remainingLoop f g paths visited).1)
        (remainingLoop f g paths visited).2 := by
  intro f
  induction f with
  | zero => intro paths visited hJ; exact hJ
  | succ f ih =>
      intro paths visited hJ
      rw [remainingLoop]
      cases hflt : (edgesOG g).filter (fun e => decide (e ∉ visited)) with
      | nil => exact hJ
      | cons e es =>
          have hem : e ∈ (edgesOG g).filter (fun e => decide (e ∉ visited)) := by
            rw [hflt]
            exact List.mem_cons_self _ _
          obtain ⟨hee, hev⟩ := List.mem_filter.mp hem
          have hev2 : e ∉ visited := by simpa using hev
          exact ih _ _ (buildGreedyPaths_inv g e.1 paths visited (some e) hJ
            (fun e2 he2 => by
              rw [Option.some.injEq] at he2
              rw [← he2]
              exact ⟨hee, hev2⟩))

/-- C1, amended: the paths emitted by `find_paths` cover each edge at
most once — the consecutive pairs across all emitted paths are pairwise
distinct and each one is an edge of the overlap graph — but edges
consumed by the cycle guard (their target already lay in the current
path) can appear in no emitted path, so the cover may omit edges and is
not a partition. -/
theorem c1_no_duplication (g : OGraph) :
    (pathPairs (find_paths g)).Nodup ∧
      ∀ e ∈ pathPairs (find_paths g), e ∈ edgesOG g := by
  have hred : find_paths g =
      if g.nodes.isEmpty then []
      else
        (remainingLoop ((edgesOG g).length + 1) g
          ((startNodesOLC g).foldl
            (fun acc s => buildGreedyPaths g s acc.1 acc.2 none) ([], [])).1
          ((startNodesOLC g).foldl
            (fun acc s => buildGreedyPaths g s acc.1 acc.2 none) ([], [])).2).1
      := rfl
  rw [hred]
  by_cases hn : g.nodes.isEmpty
  · rw [if_pos hn]
    exact ⟨List.nodup_nil, by simp [pathPairs]⟩
  · rw [if_neg hn]
    have hfold : PathInv g
        (pathPairs ((startNodesOLC g).foldl
          (fun acc s => buildGreedyPaths g s acc.1 acc.2 none) ([], [])).1)
        ((startNodesOLC g).foldl
          (fun acc s => buildGreedyPaths g s acc.1 acc.2 none) ([], [])).2 := by
      refine foldl_preserves_mem
        (fun acc : List (List String) × List (String × String) =>
          PathInv g (pathPairs acc.1) acc.2)
        (fun acc s => buildGreedyPaths g s acc.1 acc.2 none)
        (startNodesOLC g) ([], [])
        ⟨List.nodup_nil, by simp [pathPairs], by simp⟩ ?_
      intro acc s _ hacc
      exact buildGreedyPaths_inv g s acc.1 acc.2 none hacc
        (fun e2 he2 => by simp at he2)
    have hloop := remainingLoop_inv g ((edgesOG g).length + 1) _ _ hfold
    exact ⟨hloop.1, fun e he => hloop.2.2 e (hloop.2.1 e he)⟩
